import Mathlib

/-!
Multi-party protocols of the lattice library (share aggregation, collective key
generation, collective key switching) and the helpers of the scheme packages.

The development has two parts: the definitions (the embedding of the code, and the
protocol steps that the sources at hand only call), then the theorems.

* `ShareCombiner`, `CKGProtocol`, `CKSProtocol`: the protocol steps of `dbfv`.
* `dbfv`: the rotation step computed in `benchRotKeyGen`.
* `bfv`: `NewCiphertext`, `NewRandomCiphertext`, `Parameters.UnmarshalJSON`.
* `ckks`: `SliceBitReverseInPlace*`, `SingleFloat64ToFixedPointCRT`,
  `Complex128ToFixedPointCRT`.

Conventions: a function that mutates an argument returns the new value; `Option`
results use `none` for a call that does not return (a panic, or a loop that does not
stop within the given bound); unsigned 64-bit words are natural numbers reduced
modulo `2 ^ 64` where the code can wrap around.
-/

/-! Part one: definitions. -/

namespace ShareCombiner

/-- Polynomial in RNS form: `Coeffs[i][j]` is coefficient `j` modulo the `i`-th prime. -/
structure Poly where
  Coeffs : List (List Nat)
deriving DecidableEq

/-- Ring context: the RNS modulus chain the shares live in. -/
structure Context where
  Modulus : List Nat
deriving DecidableEq

/-- Coefficient-wise modular addition of two rows modulo `q`. -/
def addRow (q : Nat) (r1 r2 : List Nat) : List Nat :=
  List.zipWith (fun x y => (x + y) % q) r1 r2

/-- Modelled from the spec: `Aggregate(dst, a, b)` of section 4.1 (the body of every
`AggregateShare*`, which is not part of the sources at hand): `dst = a + b`,
coefficient-wise modular addition in every RNS component. The result is returned
instead of being written through `dst`. -/
def Aggregate (ctx : Context) (a b : Poly) : Poly :=
  ⟨List.zipWith3 addRow ctx.Modulus a.Coeffs b.Coeffs⟩

/-- Sequential fold of a list of shares: the running share starts as the first
share and every further share is folded in with `Aggregate(acc, acc, share)`.
There is nothing to return for an empty list. -/
def aggregateSeq (ctx : Context) : List Poly → Option Poly
  | [] => none
  | s :: rest => some (rest.foldl (Aggregate ctx) s)

/-- Binary tree over shares: a grouping in which shares are combined. -/
inductive AggTree where
  | leaf (share : Poly)
  | node (l r : AggTree)

/-- Shares at the leaves of a tree, from left to right. -/
def AggTree.leaves : AggTree → List Poly
  | .leaf s => [s]
  | .node l r => l.leaves ++ r.leaves

/-- Combine the shares along the tree: each inner node aggregates its two subtrees. -/
def AggTree.aggregate (ctx : Context) : AggTree → Poly
  | .leaf s => s
  | .node l r => Aggregate ctx (l.aggregate ctx) (r.aggregate ctx)

end ShareCombiner

namespace CKGProtocol

/-- Public key: a pair of ring elements. -/
structure PublicKey (R : Type) where
  p0 : R
  p1 : R

/-- What one party brings to a key generation: its secret share `s` and the error
`e` it sampled for this run. -/
structure Party (R : Type) where
  s : R
  e : R

/-- Modelled from the spec: `GenShare(sk_i, crp, outShare)` of section 4.2, which is not
part of the sources at hand: `outShare = -(sk_i * crp + e_i)`. The ring is any
commutative ring; the freshly sampled error `e_i` is an explicit argument and the
share is returned. -/
def GenShare {R : Type} [CommRing R] (sk crp e : R) : R :=
  -(sk * crp + e)

/-- Modelled from the spec: `AggregateShares` of section 4.2, which is not part of the
sources at hand: folds via section 4.1, `shareOut = share1 + share2` in the ring. -/
def AggregateShares {R : Type} [CommRing R] (share1 share2 : R) : R :=
  share1 + share2

/-- Modelled from the spec: `Finalize` (`GenPublicKey`) of section 4.2, which is not part
of the sources at hand: `outPublicKey = (aggregatedShare, crp)`. -/
def GenPublicKey {R : Type} [CommRing R] (aggregatedShare crp : R) : PublicKey R :=
  ⟨aggregatedShare, crp⟩

/-- One run of the protocol up to the aggregated share: every party generates its
share from the common `crp`, and the aggregator folds the shares of `rest` one by
one into the share of `first`. -/
def aggregatedShare {R : Type} [CommRing R] (crp : R) (first : Party R)
    (rest : List (Party R)) : R :=
  (rest.map fun p => GenShare p.s crp p.e).foldl AggregateShares (GenShare first.s crp first.e)

/-- Joint secret `s = s_1 + ... + s_N`. -/
def jointSecret {R : Type} [CommRing R] (first : Party R) (rest : List (Party R)) : R :=
  ((first :: rest).map Party.s).sum

/-- Combined noise `e_1 + ... + e_N`. -/
def jointError {R : Type} [CommRing R] (first : Party R) (rest : List (Party R)) : R :=
  ((first :: rest).map Party.e).sum

end CKGProtocol

namespace CKSProtocol

/-- Ciphertext of degree 1: the pair `(c0, c1)`. -/
structure Ciphertext (R : Type) where
  c0 : R
  c1 : R

/-- What one party brings to a key switch: its share `sIn` of the input key, its
share `sOut` of the output key and the masking noise `e` it sampled for this run. -/
structure Party (R : Type) where
  sIn : R
  sOut : R
  e : R

/-- Modelled from the spec: CKS `GenShare` of section 4.3, which is not part of the
sources at hand: `outShare = sIn_i * c1 - sOut_i * c1 + e_i`. The ring is any
commutative ring; the sampled masking noise `e_i` is an explicit argument and the
share is returned. -/
def GenShare {R : Type} [CommRing R] (sIn sOut : R) (ct : Ciphertext R) (e : R) : R :=
  sIn * ct.c1 - sOut * ct.c1 + e

/-- Modelled from the spec: `AggregateShares` of section 4.3, which is not part of the
sources at hand: the ring sum of section 4.1, `shareOut = share1 + share2`. -/
def AggregateShares {R : Type} [CommRing R] (share1 share2 : R) : R :=
  share1 + share2

/-- Modelled from the spec: `Finalize` (`KeySwitch`) of section 4.3, which is not part of
the sources at hand: the input ciphertext with its key-switching component `c0`
adjusted by the aggregated share, `(c0 + h, c1)`. -/
def KeySwitch {R : Type} [CommRing R] (combined : R) (ct : Ciphertext R) : Ciphertext R :=
  ⟨ct.c0 + combined, ct.c1⟩

/-- Decryption phase of a degree-1 ciphertext under the secret `s`: `c0 + s * c1`. -/
def phase {R : Type} [CommRing R] (ct : Ciphertext R) (s : R) : R :=
  ct.c0 + s * ct.c1

/-- One run of the protocol up to the aggregated share `h`: every party generates
its share for `ct`, and the aggregator folds the shares of `rest` one by one into
the share of `first`. -/
def aggregatedShare {R : Type} [CommRing R] (ct : Ciphertext R) (first : Party R)
    (rest : List (Party R)) : R :=
  (rest.map fun p => GenShare p.sIn p.sOut ct p.e).foldl AggregateShares
    (GenShare first.sIn first.sOut ct first.e)

/-- Input secret, the sum of the input shares. -/
def secretIn {R : Type} [CommRing R] (first : Party R) (rest : List (Party R)) : R :=
  ((first :: rest).map Party.sIn).sum

/-- Output secret, the sum of the output shares. -/
def secretOut {R : Type} [CommRing R] (first : Party R) (rest : List (Party R)) : R :=
  ((first :: rest).map Party.sOut).sum

/-- Aggregated masking noise `e_1 + ... + e_N`. -/
def maskingNoise {R : Type} [CommRing R] (first : Party R) (rest : List (Party R)) : R :=
  ((first :: rest).map Party.e).sum

end CKSProtocol

namespace dbfv

/-- Value of `mask := uint64((contextKeys.N >> 1) - 1)` in `benchRotKeyGen`: the
subtraction is done on unsigned 64-bit words and wraps around. -/
def rotMask (N : Nat) : Nat :=
  ((N >>> 1) % 2 ^ 64 + 2 ^ 64 - 1) % 2 ^ 64

/-- Rotation step `uint64(i) & mask` that `benchRotKeyGen` passes to `GenShare`. -/
def rotationStep (N i : Nat) : Nat :=
  (i % 2 ^ 64) &&& rotMask N

end dbfv

namespace bfv

/-- Polynomial in RNS form, `Coeffs[i][j]` being coefficient `j` modulo the `i`-th prime. -/
structure Poly where
  Coeffs : List (List Nat)
deriving DecidableEq

/-- Ring context (`ring.Context`): degree and modulus chain. -/
structure RingContext where
  N : Nat
  Modulus : List Nat
deriving DecidableEq

/-- Element of the scheme (`bfvElement`): a slice of polynomial pointers, `none`
standing for a nil pointer, and the NTT flag. -/
structure bfvElement where
  value : List (Option Nat)
  isNTT : Bool
deriving DecidableEq

/-- Ciphertext: wraps a `bfvElement`. -/
structure Ciphertext where
  el : bfvElement
deriving DecidableEq

/-- Scheme context as far as `NewRandomCiphertext` uses it: the ring context
`contextQ`. -/
structure Context where
  contextQ : RingContext

/-- Parameter set of the scheme: `Parameters` embeds `bgv.Parameters`, whose
declaration lies outside the sources at hand and is the type parameter `B`. -/
structure Parameters (B : Type) where
  bgv : B
deriving DecidableEq

/-- Decoder `(*bgv.Parameters).UnmarshalJSON`, which lies outside the sources at
hand: called on a parameter set and a byte string it returns the content of the
pointed-to parameter set after the call and the error (`none` for nil). -/
abbrev BgvUnmarshalJSON (B : Type) := B → List UInt8 → B × Option String

/-- Embedding of `Parameters.Equal` for an argument of type `Parameters`. -/
def Parameters.Equal {B : Type} [DecidableEq B] (p other : Parameters B) : Bool :=
  decide (p.bgv = other.bgv)

/-- Embedding of `func (p Parameters) UnmarshalJSON(data []byte) (err error)`. The
receiver is passed by value: the body decodes into `p`, the copy that the callee
owns, and only `err` is returned. The result is the value of the caller after the
call together with `err`. -/
def Parameters.UnmarshalJSON {B : Type} (decode : BgvUnmarshalJSON B)
    (caller : Parameters B) (data : List UInt8) : Parameters B × Option String :=
  let p : Parameters B := caller
  let (decoded, err) := decode p.bgv data
  let _p : Parameters B := ⟨decoded⟩
  (caller, err)

/-- Embedding of `func (p Parameters) UnmarshalBinary(data []byte) (err error)`,
which has the same body. -/
def Parameters.UnmarshalBinary {B : Type} (decode : BgvUnmarshalJSON B)
    (caller : Parameters B) (data : List UInt8) : Parameters B × Option String :=
  let p : Parameters B := caller
  let (decoded, err) := decode p.bgv data
  let _p : Parameters B := ⟨decoded⟩
  (caller, err)

end bfv

namespace ckks

/-- Value of type `complex128`, over a carrier `F` of the `float64` values. -/
structure Complex (F : Type) where
  re : F
  im : F

/-- The inner loop `for j >= bit { j -= bit; bit >>= 1 }`, returning the final
`(j, bit)`. `fuel` bounds the number of times the loop condition is tested;
`none` stands for a loop that has not stopped within the bound. -/
def carryLoop : Nat → Nat → Nat → Option (Nat × Nat)
  | 0, _, _ => none
  | fuel + 1, j, bit =>
    if j ≥ bit then carryLoop fuel (j - bit) (bit >>> 1) else some (j, bit)

/-- The assignment `slice[i], slice[j] = slice[j], slice[i]`; `none` stands for the
panic on an index out of range. -/
def swapAt {α : Type} (slice : List α) (i j : Nat) : Option (List α) :=
  match slice[i]?, slice[j]? with
  | some a, some b => some ((slice.set i b).set j a)
  | _, _ => none

/-- The outer loop `for i := 1; i < N; i++ { ... }` from counter `i` with `todo`
iterations left; `j` is carried from one iteration to the next. -/
def bitReverseLoop {α : Type} (fuel N : Nat) : Nat → Nat → Nat → List α → Option (List α)
  | 0, _, _, slice => some slice
  | todo + 1, i, j, slice =>
    match carryLoop fuel j (N >>> 1) with
    | none => none
    | some (j, bit) =>
      let j := j + bit
      if i < j then
        match swapAt slice i j with
        | none => none
        | some slice => bitReverseLoop fuel N todo (i + 1) j slice
      else bitReverseLoop fuel N todo (i + 1) j slice

/-- Embedding of the body shared by `SliceBitReverseInPlaceComplex128`,
`SliceBitReverseInPlaceFloat64` and `SliceBitReverseInPlaceBigComplex`, which
differ in the element type only. The slice after the call is returned. The
integers of the code are 64-bit; no value of the loop exceeds `N`. -/
def SliceBitReverseInPlace {α : Type} (fuel : Nat) (slice : List α) (N : Nat) :
    Option (List α) :=
  bitReverseLoop fuel N (N - 1) 1 0 slice

/-- Embedding of `SliceBitReverseInPlaceComplex128(slice, N)`. -/
abbrev SliceBitReverseInPlaceComplex128 {F : Type} (fuel : Nat) (slice : List (Complex F))
    (N : Nat) : Option (List (Complex F)) :=
  SliceBitReverseInPlace fuel slice N

/-- Embedding of `SliceBitReverseInPlaceFloat64(slice, N)`. -/
abbrev SliceBitReverseInPlaceFloat64 {F : Type} (fuel : Nat) (slice : List F) (N : Nat) :
    Option (List F) :=
  SliceBitReverseInPlace fuel slice N

/-- Embedding of `SliceBitReverseInPlaceBigComplex(slice, N)`, over a carrier `P` of
the pointers to `bignum.Complex` values. -/
abbrev SliceBitReverseInPlaceBigComplex {P : Type} (fuel : Nat) (slice : List P) (N : Nat) :
    Option (List P) :=
  SliceBitReverseInPlace fuel slice N

/-- Reversal of the `k`-bit binary representation of `i`: the lowest bit of `i`
becomes bit `k - 1`, and the remaining bits are reversed below it. -/
def bitRev : Nat → Nat → Nat
  | 0, _ => 0
  | k + 1, i => (i % 2) * 2 ^ k + bitRev k (i / 2)

/-- State of the slice after the iterations `1, ..., t` of the outer loop: the
entries at `m` and `bitRev k m` have been exchanged exactly for the pairs that
have an index at most `t`. -/
def SwappedUpTo {α : Type} (k : Nat) (orig : List α) (t : Nat) (s : List α) : Prop :=
  s.length = orig.length ∧
  ∀ m, s[m]? = if m < 2 ^ k ∧ (m ≤ t ∨ bitRev k m ≤ t) then orig[bitRev k m]? else orig[m]?

/-- Ring type (`ring.Type`). -/
inductive RingType where
  | Standard
  | ConjugateInvariant
deriving DecidableEq

/-- The ring `r` as far as the encoders read it: `r.Type()`, `r.ModuliChain()`,
`r.BRedConstants()` and `r.Level()`. -/
structure Ring where
  ringType : RingType
  ModuliChain : List Nat
  BRedConstants : List (List Nat)
  Level : Nat
deriving DecidableEq

/-- Coefficients in CRT form, `coeffs[j][i]` being coefficient `i` modulo the `j`-th prime. -/
abbrev Coeffs := List (List Nat)

/-- What the encoders use and the sources at hand do not contain. Floating-point
arithmetic is not modelled: the operations on `float64` and `big.Float` values are
parameters, as are `ring.BRedAdd` and `SingleFloatToFixedPointCRT`. -/
structure Primitives (F : Type) where
  /-- The constant `0`. -/
  zero : F
  /-- The constant `-1`. -/
  negOne : F
  /-- The test `value == 0`. -/
  isZero : F → Bool
  /-- The test `value < 0`. -/
  isNeg : F → Bool
  /-- The product of two `float64` values. -/
  mul : F → F → F
  /-- The test `value > 1.8446744073709552e+19`. -/
  gtTwo64 : F → Bool
  /-- The integer that `big.NewFloat(value)` plus `0.5` is truncated to. -/
  roundBig : F → Int
  /-- The word `uint64(value + 0.5)`. -/
  roundU64 : F → Nat
  /-- The function `ring.BRedAdd(c, qi, brc)`. -/
  BRedAdd : Nat → Nat → List Nat → Nat
  /-- The function `SingleFloatToFixedPointCRT(r, i, value, scale, coeffs)`,
  returning the coefficients after the call. -/
  SingleFloatToFixedPointCRT : Ring → Nat → F → F → Coeffs → Option Coeffs

/-- Subtraction `a - b` of unsigned 64-bit words, wrapping around. -/
def subU64 (a b : Nat) : Nat :=
  (a % 2 ^ 64 + 2 ^ 64 - b % 2 ^ 64) % 2 ^ 64

/-- The assignment `coeffs[j][i] = x`; `none` stands for the panic on an index out
of range. -/
def setCoeff (coeffs : Coeffs) (j i x : Nat) : Option Coeffs :=
  match coeffs[j]? with
  | none => none
  | some row => if i < row.length then some (coeffs.set j (row.set i x)) else none

/-- A loop `for j := range ... { coeffs[j][i] = f(j) }` from row `j` with `todo`
rows left; `f j = none` stands for a panic while the value is computed. -/
def writeColumn (i : Nat) (f : Nat → Option Nat) : Nat → Nat → Coeffs → Option Coeffs
  | 0, _, coeffs => some coeffs
  | todo + 1, j, coeffs =>
    match f j with
    | none => none
    | some x =>
      match setCoeff coeffs j i x with
      | none => none
      | some coeffs => writeColumn i f todo (j + 1) coeffs

/-- The slice `r.ModuliChain()[:r.Level()+1]`; `none` stands for the panic on a
bound out of range. -/
def moduliAtLevel (r : Ring) : Option (List Nat) :=
  if r.Level + 1 ≤ r.ModuliChain.length then some (r.ModuliChain.take (r.Level + 1)) else none

/-- Embedding of `SingleFloat64ToFixedPointCRT(r, i, value, scale, coeffs)`,
returning the coefficients after the call. -/
def SingleFloat64ToFixedPointCRT {F : Type} (lib : Primitives F) (r : Ring) (i : Nat)
    (value scale : F) (coeffs : Coeffs) : Option Coeffs :=
  if lib.isZero value then
    writeColumn i (fun _ => some 0) coeffs.length 0 coeffs
  else
    let isNegative := lib.isNeg value
    let scale := if isNegative then lib.mul scale lib.negOne else scale
    let value := lib.mul value scale
    match moduliAtLevel r with
    | none => none
    | some moduli =>
      if lib.gtTwo64 value then
        let xInt := lib.roundBig value
        writeColumn i (fun j =>
          match moduli[j]? with
          | none => none
          | some qj =>
            if qj = 0 then none
            else
              let tmp := (xInt % (qj : Int)).toNat % 2 ^ 64
              if isNegative then some (subU64 qj tmp) else some tmp)
          moduli.length 0 coeffs
      else
        let brc := r.BRedConstants
        let c := lib.roundU64 value
        if isNegative then
          writeColumn i (fun j =>
            match moduli[j]? with
            | none => none
            | some qi =>
              if c > qi then
                match brc[j]? with
                | none => none
                | some b => some (subU64 qi (lib.BRedAdd c qi b))
              else some (subU64 qi c))
            moduli.length 0 coeffs
        else
          writeColumn i (fun j =>
            match moduli[j]? with
            | none => none
            | some qi =>
              if c > 0x1fffffffffffffff then
                match brc[j]? with
                | none => none
                | some b => some (lib.BRedAdd c qi b)
              else some c)
            moduli.length 0 coeffs

/-- A loop `for i, v := range values { body }` from index `i`. -/
def forValues {F : Type} (body : Nat → Complex F → Coeffs → Option Coeffs) :
    List (Complex F) → Nat → Coeffs → Option Coeffs
  | [], _, coeffs => some coeffs
  | v :: values, i, coeffs =>
    match body i v coeffs with
    | none => none
    | some coeffs => forValues body values (i + 1) coeffs

/-- A loop `for i := start; i < end; i++ { body }` from counter `i` with `todo`
iterations left. -/
def forIndex (body : Nat → Coeffs → Option Coeffs) : Nat → Nat → Coeffs → Option Coeffs
  | 0, _, coeffs => some coeffs
  | todo + 1, i, coeffs =>
    match body i coeffs with
    | none => none
    | some coeffs => forIndex body todo (i + 1) coeffs

/-- Embedding of `Complex128ToFixedPointCRT(r, values, scale, coeffs)`, returning
the coefficients after the call. -/
def Complex128ToFixedPointCRT {F : Type} (lib : Primitives F) (r : Ring)
    (values : List (Complex F)) (scale : F) (coeffs : Coeffs) : Option Coeffs :=
  match forValues (fun i v c => SingleFloat64ToFixedPointCRT lib r i v.re scale c)
      values 0 coeffs with
  | none => none
  | some coeffs =>
    let next : Option (Coeffs × Nat) :=
      if r.ringType = RingType.Standard then
        let slots := values.length
        match forValues (fun i v c => SingleFloat64ToFixedPointCRT lib r (i + slots) v.im scale c)
            values 0 coeffs with
        | none => none
        | some coeffs => some (coeffs, 2 * values.length)
      else some (coeffs, values.length)
    match next with
    | none => none
    | some (coeffs, start) =>
      match coeffs[0]? with
      | none => none
      | some row0 =>
        let stop := row0.length
        forIndex (fun i c => lib.SingleFloatToFixedPointCRT r i lib.zero lib.zero c)
          (stop - start) start coeffs

/-- An instance of the primitives: the `float64` operations on values that are
integers, on which they are exact, `ring.BRedAdd` as the remainder, and
`SingleFloatToFixedPointCRT` doing what `SingleFloat64ToFixedPointCRT` does for
the value `0`, the coefficient set to `0` in every row. -/
def integerPrimitives : Primitives Int where
  zero := 0
  negOne := -1
  isZero x := decide (x = 0)
  isNeg x := decide (x < 0)
  mul x y := x * y
  gtTwo64 x := decide (x > 2 ^ 64)
  roundBig x := x
  roundU64 x := x.toNat % 2 ^ 64
  BRedAdd c qi _ := c % qi
  SingleFloatToFixedPointCRT _ i _ _ coeffs :=
    writeColumn i (fun _ => some 0) coeffs.length 0 coeffs

/-- Coefficient `k` of row `a`, when both indices are in range. -/
def coeffAt (cf : Coeffs) (a k : Nat) : Option Nat :=
  (cf[a]?).bind fun row => row[k]?

/-- Shape of a coefficient matrix: `rows` rows of `N` coefficients each. -/
def Rect (rows N : Nat) (cf : Coeffs) : Prop :=
  cf.length = rows ∧ ∀ row ∈ cf, row.length = N

/-- The call `g` returns on every matrix of the given shape, keeps the shape and
leaves every column other than `col` as it was. -/
def FramesColumn (rows N col : Nat) (g : Coeffs → Option Coeffs) : Prop :=
  ∀ cf, Rect rows N cf → ∃ cf2, g cf = some cf2 ∧ Rect rows N cf2 ∧
    ∀ a k, k ≠ col → coeffAt cf2 a k = coeffAt cf a k

/-- The call `g` returns on every matrix of the given shape, keeps the shape and
overwrites the first `n` rows of column `col` with values that do not depend on
the matrix. -/
def ColumnWriter (rows N col : Nat) (g : Coeffs → Option Coeffs) : Prop :=
  ∃ (n : Nat) (f : Nat → Option Nat), ∀ cf, Rect rows N cf → ∃ cf2, g cf = some cf2 ∧ Rect rows N cf2 ∧
    ∀ a k, coeffAt cf2 a k = if k = col ∧ a < n then f a else coeffAt cf a k

/-- Ring of the examples: Standard, one modulus `97`, level `0`. -/
def exampleRing : Ring :=
  ⟨RingType.Standard, [97], [[0, 0]], 0⟩

/-- Values of the examples: `1+2i, 3+4i, 5+6i`. -/
def exampleValues : List (Complex Int) :=
  [⟨1, 2⟩, ⟨3, 4⟩, ⟨5, 6⟩]

/-- Coefficients of the examples before the call: one row of `N = 8` coefficients. -/
def exampleCoeffs : Coeffs :=
  [[9, 9, 9, 9, 9, 9, 9, 9]]

end ckks

/-! Part two: theorems. -/

namespace ShareCombiner

theorem addRow_comm (q : Nat) (x y : List Nat) : addRow q x y = addRow q y x := by
  unfold addRow
  induction x generalizing y with
  | nil => cases y <;> rfl
  | cons a x ih =>
    cases y with
    | nil => rfl
    | cons b y => simp [List.zipWith, ih, Nat.add_comm]

theorem addRow_assoc (q : Nat) (x y z : List Nat) :
    addRow q (addRow q x y) z = addRow q x (addRow q y z) := by
  unfold addRow
  induction x generalizing y z with
  | nil => cases y <;> cases z <;> rfl
  | cons a x ih =>
    cases y with
    | nil => cases z <;> rfl
    | cons b y =>
      cases z with
      | nil => rfl
      | cons c z =>
        simp only [List.zipWith, List.cons.injEq]
        refine ⟨?_, ih y z⟩
        rw [Nat.add_mod (a := (a + b) % q), Nat.mod_mod, ← Nat.add_mod,
          Nat.add_mod (a := a) (b := (b + c) % q), Nat.mod_mod, ← Nat.add_mod, Nat.add_assoc]

theorem Aggregate_comm (ctx : Context) (a b : Poly) : Aggregate ctx a b = Aggregate ctx b a := by
  obtain ⟨m⟩ := ctx
  obtain ⟨a⟩ := a
  obtain ⟨b⟩ := b
  simp only [Aggregate, Poly.mk.injEq]
  induction m generalizing a b with
  | nil => rfl
  | cons q m ih =>
    cases a with
    | nil => cases b <;> rfl
    | cons x a =>
      cases b with
      | nil => rfl
      | cons y b => simp [List.zipWith3, ih, addRow_comm q x y]

theorem Aggregate_assoc (ctx : Context) (a b c : Poly) :
    Aggregate ctx (Aggregate ctx a b) c = Aggregate ctx a (Aggregate ctx b c) := by
  obtain ⟨m⟩ := ctx
  obtain ⟨a⟩ := a
  obtain ⟨b⟩ := b
  obtain ⟨c⟩ := c
  simp only [Aggregate, Poly.mk.injEq]
  induction m generalizing a b c with
  | nil => rfl
  | cons q m ih =>
    cases a with
    | nil => cases b <;> cases c <;> rfl
    | cons x a =>
      cases b with
      | nil => cases c <;> rfl
      | cons y b =>
        cases c with
        | nil => rfl
        | cons z c => simp [List.zipWith3, ih, addRow_assoc q x y z]

theorem Aggregate_right_comm (ctx : Context) (a b c : Poly) :
    Aggregate ctx (Aggregate ctx a b) c = Aggregate ctx (Aggregate ctx a c) b := by
  rw [Aggregate_assoc, Aggregate_comm ctx b c, ← Aggregate_assoc]

theorem foldl_Aggregate_left (ctx : Context) (x b : Poly) (l : List Poly) :
    l.foldl (Aggregate ctx) (Aggregate ctx x b) = Aggregate ctx x (l.foldl (Aggregate ctx) b) := by
  induction l generalizing b with
  | nil => rfl
  | cons c l ih => simp only [List.foldl_cons]; rw [Aggregate_assoc, ih]

theorem foldl_Aggregate_perm (ctx : Context) {l1 l2 : List Poly} (h : l1.Perm l2) (s : Poly) :
    l1.foldl (Aggregate ctx) s = l2.foldl (Aggregate ctx) s := by
  induction h generalizing s with
  | nil => rfl
  | cons x _ ih => simp only [List.foldl_cons]; exact ih _
  | swap x y l => simp only [List.foldl_cons]; rw [Aggregate_right_comm]
  | trans _ _ ih1 ih2 => exact (ih1 s).trans (ih2 s)

theorem aggregateSeq_perm (ctx : Context) {l1 l2 : List Poly} (h : l1.Perm l2) :
    aggregateSeq ctx l1 = aggregateSeq ctx l2 := by
  induction h with
  | nil => rfl
  | cons x h _ => simp only [aggregateSeq]; rw [foldl_Aggregate_perm ctx h]
  | swap x y l => simp only [aggregateSeq, List.foldl_cons]; rw [Aggregate_comm]
  | trans _ _ ih1 ih2 => exact ih1.trans ih2

theorem aggregateSeq_append (ctx : Context) (a b : Poly) (l1 l2 : List Poly) :
    aggregateSeq ctx ((a :: l1) ++ (b :: l2)) =
      some (Aggregate ctx (l1.foldl (Aggregate ctx) a) (l2.foldl (Aggregate ctx) b)) := by
  simp only [aggregateSeq, List.cons_append, List.foldl_append, List.foldl_cons]
  rw [foldl_Aggregate_left]

theorem AggTree.aggregateSeq_leaves (ctx : Context) (t : AggTree) :
    aggregateSeq ctx t.leaves = some (t.aggregate ctx) := by
  induction t with
  | leaf s => rfl
  | node l r ihl ihr =>
    simp only [AggTree.leaves, AggTree.aggregate]
    cases hl : l.leaves with
    | nil => rw [hl] at ihl; simp [aggregateSeq] at ihl
    | cons a l1 =>
      cases hr : r.leaves with
      | nil => rw [hr] at ihr; simp [aggregateSeq] at ihr
      | cons b l2 =>
        rw [hl] at ihl; rw [hr] at ihr
        simp only [aggregateSeq, Option.some.injEq] at ihl ihr
        rw [aggregateSeq_append, ihl, ihr]

/-- C1: aggregation is order-independent. For every non-empty list of shares
(`first :: rest`), every permutation `permuted` of it and every binary tree whose
leaves are a permutation of it: the sequential fold of the list, the sequential
fold of the permuted list and the combination along the tree all return the same
polynomial; `Aggregate` itself is commutative and associative. -/
theorem aggregate_order_independent (ctx : Context) (first : Poly) (rest : List Poly) :
    (∀ a b, Aggregate ctx a b = Aggregate ctx b a) ∧
    (∀ a b c, Aggregate ctx (Aggregate ctx a b) c = Aggregate ctx a (Aggregate ctx b c)) ∧
    aggregateSeq ctx (first :: rest) = some (rest.foldl (Aggregate ctx) first) ∧
    (∀ permuted : List Poly, permuted.Perm (first :: rest) →
      aggregateSeq ctx permuted = aggregateSeq ctx (first :: rest)) ∧
    (∀ t : AggTree, t.leaves.Perm (first :: rest) →
      some (t.aggregate ctx) = aggregateSeq ctx (first :: rest)) := by
  refine ⟨Aggregate_comm ctx, Aggregate_assoc ctx, rfl, fun p hp => aggregateSeq_perm ctx hp, ?_⟩
  intro t ht
  rw [← AggTree.aggregateSeq_leaves]
  exact aggregateSeq_perm ctx ht

end ShareCombiner

namespace CKGProtocol

theorem ckg_foldl_AggregateShares {R : Type} [CommRing R] (init : R) (l : List R) :
    l.foldl AggregateShares init = init + l.sum := by
  induction l generalizing init with
  | nil => simp
  | cons x l ih => simp only [List.foldl_cons, List.sum_cons, ih, AggregateShares]; ring

theorem ckg_sum_map_GenShare {R : Type} [CommRing R] (crp : R) (l : List (Party R)) :
    (l.map fun p => GenShare p.s crp p.e).sum
      = -((l.map Party.s).sum * crp) - (l.map Party.e).sum := by
  induction l with
  | nil => simp
  | cons p l ih =>
    rw [List.map_cons, List.sum_cons, ih]
    simp only [GenShare, List.map_cons, List.sum_cons]
    ring

theorem ckg_aggregatedShare_eq {R : Type} [CommRing R] (crp : R) (first : Party R)
    (rest : List (Party R)) :
    aggregatedShare crp first rest
      = -(jointSecret first rest * crp) - jointError first rest := by
  rw [aggregatedShare, ckg_foldl_AggregateShares, ckg_sum_map_GenShare]
  simp only [jointSecret, jointError, List.map_cons, List.sum_cons, GenShare]
  ring

/-- C2: collective key generation is correct. For every commutative ring, every
common polynomial `crp` and every non-empty list of parties (`first :: rest`) with
secret shares `s_i` and errors `e_i`: the fold of the shares `-(s_i * crp + e_i)`
with `AggregateShares` equals `-(s * crp) - (e_1 + ... + e_N)` for
`s = s_1 + ... + s_N`, `GenPublicKey` outputs `(aggregatedShare, crp)`, and the key
satisfies `p0 + s * p1 = -(e_1 + ... + e_N)`. -/
theorem ckg_correct {R : Type} [CommRing R] (crp : R) (first : Party R)
    (rest : List (Party R)) :
    aggregatedShare crp first rest
        = -(jointSecret first rest * crp) - jointError first rest ∧
    (GenPublicKey (aggregatedShare crp first rest) crp).p0 = aggregatedShare crp first rest ∧
    (GenPublicKey (aggregatedShare crp first rest) crp).p1 = crp ∧
    (GenPublicKey (aggregatedShare crp first rest) crp).p0
        + jointSecret first rest * (GenPublicKey (aggregatedShare crp first rest) crp).p1
      = -jointError first rest := by
  refine ⟨ckg_aggregatedShare_eq crp first rest, rfl, rfl, ?_⟩
  simp only [GenPublicKey, ckg_aggregatedShare_eq]
  ring

end CKGProtocol

namespace CKSProtocol

theorem cks_foldl_AggregateShares {R : Type} [CommRing R] (init : R) (l : List R) :
    l.foldl AggregateShares init = init + l.sum := by
  induction l generalizing init with
  | nil => simp
  | cons x l ih => simp only [List.foldl_cons, List.sum_cons, ih, AggregateShares]; ring

theorem cks_sum_map_GenShare {R : Type} [CommRing R] (ct : Ciphertext R) (l : List (Party R)) :
    (l.map fun p => GenShare p.sIn p.sOut ct p.e).sum
      = (l.map Party.sIn).sum * ct.c1 - (l.map Party.sOut).sum * ct.c1
        + (l.map Party.e).sum := by
  induction l with
  | nil => simp
  | cons p l ih =>
    rw [List.map_cons, List.sum_cons, ih]
    simp only [GenShare, List.map_cons, List.sum_cons]
    ring

theorem cks_aggregatedShare_eq {R : Type} [CommRing R] (ct : Ciphertext R) (first : Party R)
    (rest : List (Party R)) :
    aggregatedShare ct first rest
      = secretIn first rest * ct.c1 - secretOut first rest * ct.c1
        + maskingNoise first rest := by
  rw [aggregatedShare, cks_foldl_AggregateShares, cks_sum_map_GenShare]
  simp only [secretIn, secretOut, maskingNoise, List.map_cons, List.sum_cons, GenShare]
  ring

/-- C3: collective key switching re-encrypts correctly. For every commutative ring,
every degree-1 ciphertext `(c0, c1)` and every non-empty list of parties
(`first :: rest`) with input shares `sIn_i`, output shares `sOut_i` and masking noises
`e_i`: with `h` the fold of the shares `sIn_i * c1 - sOut_i * c1 + e_i` by ring addition,
`KeySwitch` outputs `(c0 + h, c1)`, and the phase of the output under
`sOut = sum of sOut_i` is the phase of the input under `sIn = sum of sIn_i` plus
`e_1 + ... + e_N`. -/
theorem cks_correct {R : Type} [CommRing R] (ct : Ciphertext R) (first : Party R)
    (rest : List (Party R)) :
    (KeySwitch (aggregatedShare ct first rest) ct).c0 = ct.c0 + aggregatedShare ct first rest ∧
    (KeySwitch (aggregatedShare ct first rest) ct).c1 = ct.c1 ∧
    phase (KeySwitch (aggregatedShare ct first rest) ct) (secretOut first rest)
      = phase ct (secretIn first rest) + maskingNoise first rest := by
  refine ⟨rfl, rfl, ?_⟩
  simp only [phase, KeySwitch, cks_aggregatedShare_eq]
  ring

end CKSProtocol

namespace dbfv

theorem rotMask_pow (k : Nat) (h1 : 1 ≤ k) (h64 : k < 64) :
    rotMask (2 ^ k) = 2 ^ (k - 1) - 1 := by
  obtain ⟨m, rfl⟩ : ∃ m, k = m + 1 := ⟨k - 1, by omega⟩
  have hlt : 2 ^ m < 2 ^ 64 := Nat.pow_lt_pow_right (by norm_num) (by omega)
  have hpos : 0 < 2 ^ m := Nat.two_pow_pos _
  simp only [rotMask, Nat.shiftRight_eq_div_pow, pow_one, Nat.add_sub_cancel]
  rw [Nat.pow_succ, Nat.mul_div_cancel _ (by norm_num : 0 < 2), Nat.mod_eq_of_lt hlt]
  have : 2 ^ m + 2 ^ 64 - 1 = (2 ^ m - 1) + 2 ^ 64 := by omega
  rw [this, Nat.add_mod_right, Nat.mod_eq_of_lt (by omega)]

/-- C8: the rotation step passed to RTG `GenShare` is reduced modulo the half-degree.
For every ring degree `N = 2^k` with `N >= 2` that fits an unsigned 64-bit word and
every unsigned 64-bit step `i`, `i & mask` with `mask = (N >> 1) - 1` equals
`i mod (N/2)` and is strictly less than `N/2`. -/
theorem rotationStep_reduced (k i : Nat) (h1 : 1 ≤ k) (h64 : k < 64) (hi : i < 2 ^ 64) :
    rotationStep (2 ^ k) i = i % (2 ^ k / 2) ∧ rotationStep (2 ^ k) i < 2 ^ k / 2 := by
  have hhalf : 2 ^ k / 2 = 2 ^ (k - 1) := by
    obtain ⟨m, rfl⟩ : ∃ m, k = m + 1 := ⟨k - 1, by omega⟩
    rw [Nat.pow_succ, Nat.mul_div_cancel _ (by norm_num : 0 < 2), Nat.add_sub_cancel]
  have hval : rotationStep (2 ^ k) i = i % (2 ^ k / 2) := by
    rw [rotationStep, rotMask_pow k h1 h64, Nat.mod_eq_of_lt hi,
      Nat.and_pow_two_sub_one_eq_mod, hhalf]
  refine ⟨hval, ?_⟩
  rw [hval]
  exact Nat.mod_lt _ (by rw [hhalf]; exact Nat.two_pow_pos _)

theorem rotationStep_reduced_witness :
    1 ≤ 3 ∧ 3 < 64 ∧ 13 < 2 ^ 64 ∧
    rotationStep (2 ^ 3) 13 = 13 % (2 ^ 3 / 2) ∧ rotationStep (2 ^ 3) 13 < 2 ^ 3 / 2 :=
  ⟨by decide, by decide, by decide,
    rotationStep_reduced 3 13 (by decide) (by decide) (by decide)⟩

end dbfv

namespace bfv

/-- C6, evaluated on the code: the parameter set of the caller is untouched by
`UnmarshalJSON` and by `UnmarshalBinary`. Whatever the decoder does and whatever
error it reports (nil included), the value on which the method was invoked is
afterwards the value it was before, and the error returned is the one of the
decoder: the decoded parameter set never reaches the caller. -/
theorem UnmarshalJSON_leaves_receiver {B : Type} (decode : BgvUnmarshalJSON B)
    (caller : Parameters B) (data : List UInt8) :
    (Parameters.UnmarshalJSON decode caller data).1 = caller ∧
    (Parameters.UnmarshalJSON decode caller data).2 = (decode caller.bgv data).2 ∧
    (Parameters.UnmarshalBinary decode caller data).1 = caller ∧
    (Parameters.UnmarshalBinary decode caller data).2 = (decode caller.bgv data).2 :=
  ⟨rfl, rfl, rfl, rfl⟩

end bfv

namespace ckks

theorem bitRev_succ (k i : Nat) :
    bitRev (k + 1) i = (i % 2) * 2 ^ k + bitRev k (i / 2) := rfl

theorem bitRev_lt (k i : Nat) : bitRev k i < 2 ^ k := by
  induction k generalizing i with
  | zero => simp [bitRev]
  | succ k ih =>
    have h1 := ih (i / 2)
    have h2 : i % 2 < 2 := Nat.mod_lt _ (by norm_num)
    have h3 : i % 2 * 2 ^ k ≤ 1 * 2 ^ k := Nat.mul_le_mul_right _ (by omega)
    rw [bitRev, Nat.pow_succ]
    omega

theorem bitRev_succ_high (k i : Nat) :
    bitRev (k + 1) i = 2 * bitRev k (i % 2 ^ k) + (i / 2 ^ k) % 2 := by
  induction k generalizing i with
  | zero => simp [bitRev]
  | succ k ih =>
    rw [bitRev, ih (i / 2), bitRev]
    have e1 : i % 2 ^ (k + 1) % 2 = i % 2 :=
      Nat.mod_mod_of_dvd _ (Dvd.intro_left (2 ^ k) rfl)
    have e2 : i % 2 ^ (k + 1) / 2 = i / 2 % 2 ^ k := by
      rw [Nat.pow_succ, Nat.mul_comm, Nat.mod_mul_right_div_self]
    have e3 : i / 2 / 2 ^ k = i / 2 ^ (k + 1) := by
      rw [Nat.div_div_eq_div_mul, Nat.pow_succ, Nat.mul_comm]
    rw [e1, e2, e3, Nat.pow_succ]
    ring

theorem bitRev_bitRev (k i : Nat) (h : i < 2 ^ k) : bitRev k (bitRev k i) = i := by
  induction k generalizing i with
  | zero => simp at h; simp [bitRev, h]
  | succ k ih =>
    have hr := bitRev_lt k (i / 2)
    have hi2 : i / 2 < 2 ^ k := by rw [Nat.pow_succ] at h; omega
    rw [bitRev_succ_high]
    have e1 : bitRev (k + 1) i % 2 ^ k = bitRev k (i / 2) := by
      rw [bitRev, Nat.add_comm, Nat.add_mul_mod_self_right, Nat.mod_eq_of_lt hr]
    have e2 : bitRev (k + 1) i / 2 ^ k = i % 2 := by
      rw [bitRev, Nat.add_comm, Nat.add_mul_div_right _ _ (Nat.two_pow_pos k),
        Nat.div_eq_of_lt hr, Nat.zero_add]
    rw [e1, e2, ih _ hi2]
    omega

theorem bitRev_zero (k : Nat) : bitRev k 0 = 0 := by
  induction k with
  | zero => rfl
  | succ k ih => simp [bitRev, ih]


theorem bitRev_testBit (k i b : Nat) :
    (bitRev k i).testBit b = (decide (b < k) && i.testBit (k - 1 - b)) := by
  induction k generalizing i b with
  | zero => simp [bitRev]
  | succ k ih =>
    rw [bitRev_succ, Nat.mul_comm, Nat.testBit_mul_pow_two_add _ (bitRev_lt k (i / 2))]
    by_cases hb : b < k
    · rw [if_pos hb, ih]
      have e : k + 1 - 1 - b = (k - 1 - b) + 1 := by omega
      rw [e, Nat.testBit_succ]
      simp [hb, Nat.lt_succ_of_lt hb]
    · rw [if_neg hb]
      by_cases hbk : b = k
      · subst hbk
        simp [Nat.testBit_zero]
      · have hlt : i % 2 < 2 ^ (b - k) := by
          have : 2 ^ 1 ≤ 2 ^ (b - k) := Nat.pow_le_pow_right (by norm_num) (by omega)
          have h2 : i % 2 < 2 := Nat.mod_lt _ (by norm_num)
          omega
        rw [Nat.testBit_lt_two_pow hlt]
        have : ¬ b < k + 1 := by omega
        simp [this]
theorem bitRev_eq_zero (k m : Nat) (hm : m < 2 ^ k) (h : bitRev k m = 0) : m = 0 := by
  have := bitRev_bitRev k m hm
  rw [h, bitRev_zero] at this
  exact this.symm

theorem carryLoop_bitRev (n m fuel : Nat) (hm : m + 1 < 2 ^ (n + 1)) (hf : n + 1 ≤ fuel) :
    ∃ j bit, carryLoop fuel (bitRev (n + 1) m) (2 ^ n) = some (j, bit) ∧
      j + bit = bitRev (n + 1) (m + 1) := by
  induction n generalizing m fuel with
  | zero =>
    have hm0 : m = 0 := by simp at hm; omega
    subst hm0
    obtain ⟨f, rfl⟩ : ∃ f, fuel = f + 1 := ⟨fuel - 1, by omega⟩
    exact ⟨0, 1, by simp [carryLoop, bitRev], by simp [bitRev]⟩
  | succ n ih =>
    obtain ⟨f, rfl⟩ : ∃ f, fuel = f + 1 := ⟨fuel - 1, by omega⟩
    have hr := bitRev_lt (n + 1) (m / 2)
    rcases Nat.mod_two_eq_zero_or_one m with h0 | h1
    · refine ⟨bitRev (n + 1) (m / 2), 2 ^ (n + 1), ?_, ?_⟩
      · rw [bitRev_succ (n + 1) m, h0, Nat.zero_mul, Nat.zero_add, carryLoop,
          if_neg (by omega)]
      · have e1 : (m + 1) % 2 = 1 := by omega
        have e2 : (m + 1) / 2 = m / 2 := by omega
        rw [bitRev_succ (n + 1) (m + 1), e1, e2]
        omega
    · have hm2 : m / 2 + 1 < 2 ^ (n + 1) := by
        rw [Nat.pow_succ] at hm; omega
      obtain ⟨j, bit, hc, hjb⟩ := ih (m / 2) f hm2 (by omega)
      refine ⟨j, bit, ?_, ?_⟩
      · rw [bitRev_succ (n + 1) m, h1, Nat.one_mul, carryLoop, if_pos (by omega),
          Nat.add_sub_cancel_left]
        have e : 2 ^ (n + 1) >>> 1 = 2 ^ n := by
          rw [Nat.shiftRight_eq_div_pow, Nat.pow_succ, pow_one, Nat.mul_div_cancel _ (by norm_num)]
        rw [e]
        exact hc
      · have e1 : (m + 1) % 2 = 0 := by omega
        have e2 : (m + 1) / 2 = m / 2 + 1 := by omega
        rw [bitRev_succ (n + 1) (m + 1), e1, e2, hjb]
        omega

theorem swappedUpTo_zero {α : Type} (k : Nat) (orig : List α) : SwappedUpTo k orig 0 orig := by
  refine ⟨rfl, fun m => ?_⟩
  split
  · rename_i h
    obtain ⟨hm, h0 | h0⟩ := h
    · have : m = 0 := by omega
      subst this
      rw [bitRev_zero]
    · have hb : bitRev k m = 0 := by omega
      have : m = 0 := bitRev_eq_zero k m hm hb
      subst this
      rw [bitRev_zero]
  · rfl

theorem swapAt_getElem? {α : Type} (s s2 : List α) (i j : Nat) (h : swapAt s i j = some s2) :
    s2.length = s.length ∧
    ∀ m, s2[m]? = if m = j then s[i]? else if m = i then s[j]? else s[m]? := by
  unfold swapAt at h
  cases hi : s[i]? with
  | none => simp [hi] at h
  | some a =>
    cases hj : s[j]? with
    | none => simp [hi, hj] at h
    | some b =>
      simp only [hi, hj, Option.some.injEq] at h
      subst h
      have hil : i < s.length := (List.getElem?_eq_some_iff.mp hi).1
      have hjl : j < s.length := (List.getElem?_eq_some_iff.mp hj).1
      refine ⟨by simp, fun m => ?_⟩
      by_cases h1 : m = j
      · subst h1
        rw [if_pos rfl, List.getElem?_set_self (by simpa using hjl)]
      · rw [if_neg h1, List.getElem?_set_ne (fun h => h1 h.symm)]
        by_cases h2 : m = i
        · subst h2
          rw [if_pos rfl, List.getElem?_set_self hil]
        · rw [if_neg h2, List.getElem?_set_ne (fun h => h2 h.symm)]

theorem swapAt_isSome {α : Type} (s : List α) (i j : Nat) (hi : i < s.length)
    (hj : j < s.length) : ∃ s2, swapAt s i j = some s2 := by
  unfold swapAt
  rw [List.getElem?_eq_getElem hi, List.getElem?_eq_getElem hj]
  exact ⟨_, rfl⟩


theorem swappedUpTo_step {α : Type} (k : Nat) (orig s : List α) (t : Nat)
    (hinv : SwappedUpTo k orig t s) (ht : t + 1 < 2 ^ k) (hlen : 2 ^ k ≤ orig.length) :
    ∃ s2, (if t + 1 < bitRev k (t + 1) then swapAt s (t + 1) (bitRev k (t + 1)) else some s)
        = some s2 ∧ SwappedUpTo k orig (t + 1) s2 := by
  obtain ⟨hl, hget⟩ := hinv
  have hr := bitRev_lt k (t + 1)
  have hrr := bitRev_bitRev k (t + 1) ht
  -- an index whose pair has minimum exactly `t + 1` is `t + 1` or its image
  have hkey : ∀ m, m < 2 ^ k → bitRev k m = t + 1 → m = bitRev k (t + 1) := by
    intro m hm h
    rw [← h, bitRev_bitRev k m hm]
  by_cases hlt : t + 1 < bitRev k (t + 1)
  · rw [if_pos hlt]
    obtain ⟨s2, hs2⟩ := swapAt_isSome s (t + 1) (bitRev k (t + 1)) (by omega) (by omega)
    obtain ⟨hl2, hget2⟩ := swapAt_getElem? s s2 _ _ hs2
    refine ⟨s2, hs2, by omega, fun m => ?_⟩
    rw [hget2 m]
    by_cases h1 : m = bitRev k (t + 1)
    · subst h1
      rw [if_pos rfl, hget (t + 1), if_neg (by omega), if_pos ⟨hr, by omega⟩, hrr]
    · rw [if_neg h1]
      by_cases h2 : m = t + 1
      · subst h2
        rw [if_pos rfl, hget (bitRev k (t + 1)), if_neg (by rw [hrr]; omega),
          if_pos ⟨ht, by omega⟩]
      · rw [if_neg h2, hget m]
        by_cases hc : m < 2 ^ k ∧ (m ≤ t ∨ bitRev k m ≤ t)
        · rw [if_pos hc, if_pos ⟨hc.1, by omega⟩]
        · rw [if_neg hc, if_neg]
          rintro ⟨hm, h | h⟩
          · exact hc ⟨hm, by omega⟩
          · by_cases h3 : bitRev k m = t + 1
            · exact h1 (hkey m hm h3)
            · exact hc ⟨hm, by omega⟩
  · rw [if_neg hlt]
    refine ⟨s, rfl, hl, fun m => ?_⟩
    rw [hget m]
    by_cases hc : m < 2 ^ k ∧ (m ≤ t ∨ bitRev k m ≤ t)
    · rw [if_pos hc, if_pos ⟨hc.1, by omega⟩]
    · rw [if_neg hc]
      by_cases hc2 : m < 2 ^ k ∧ (m ≤ t + 1 ∨ bitRev k m ≤ t + 1)
      · rw [if_pos hc2]
        obtain ⟨hm, h | h⟩ := hc2
        · by_cases h3 : m = t + 1
          · subst h3
            have hb : ¬ bitRev k (t + 1) ≤ t := fun hb => hc ⟨hm, Or.inr hb⟩
            have : bitRev k (t + 1) = t + 1 := by omega
            rw [this]
          · exact absurd ⟨hm, Or.inl (by omega)⟩ hc
        · by_cases h3 : bitRev k m = t + 1
          · have hmr := hkey m hm h3
            have hm1 : ¬ m ≤ t := fun hb => hc ⟨hm, Or.inl hb⟩
            have : m = t + 1 := by omega
            rw [h3, this]
          · exact absurd ⟨hm, Or.inr (by omega)⟩ hc
      · rw [if_neg hc2]

theorem bitReverseLoop_spec {α : Type} (k fuel : Nat) (orig : List α) (hlen : 2 ^ k ≤ orig.length)
    (hf : k ≤ fuel) (todo t : Nat) (s : List α) (hinv : SwappedUpTo k orig t s)
    (ht : t + todo + 1 = 2 ^ k) :
    ∃ out, bitReverseLoop fuel (2 ^ k) todo (t + 1) (bitRev k t) s = some out ∧
      SwappedUpTo k orig (2 ^ k - 1) out := by
  induction todo generalizing t s with
  | zero =>
    have : 2 ^ k - 1 = t := by omega
    exact ⟨s, rfl, this ▸ hinv⟩
  | succ todo ih =>
    have ht1 : t + 1 < 2 ^ k := by omega
    obtain ⟨n, rfl⟩ : ∃ n, k = n + 1 := by
      cases k with
      | zero => simp at ht1
      | succ n => exact ⟨n, rfl⟩
    obtain ⟨j, bit, hc, hjb⟩ := carryLoop_bitRev n t fuel ht1 hf
    have e : 2 ^ (n + 1) >>> 1 = 2 ^ n := by
      rw [Nat.shiftRight_eq_div_pow, Nat.pow_succ, pow_one, Nat.mul_div_cancel _ (by norm_num)]
    obtain ⟨s2, hs2, hinv2⟩ := swappedUpTo_step (n + 1) orig s t hinv ht1 hlen
    obtain ⟨out, hout, hfin⟩ := ih (t + 1) s2 hinv2 (by omega)
    refine ⟨out, ?_, hfin⟩
    rw [bitReverseLoop, e, hc]
    simp only [hjb]
    by_cases hlt : t + 1 < bitRev (n + 1) (t + 1)
    · rw [if_pos hlt] at hs2
      rw [if_pos hlt, hs2]
      exact hout
    · rw [if_neg hlt] at hs2
      rw [if_neg hlt]
      cases hs2
      exact hout

/-- C4: the three `SliceBitReverseInPlace*` functions apply the bit-reverse
permutation. For every `k`, `N = 2^k`, every slice of length at least `N` and every
bound of at least `k` tests for the inner loop, the call returns, the slice keeps
its length, the element at each index `i < N` is the original element at index
`bitRev k i`, and every element at an index `>= N` is unchanged; `bitRev k i` is
the number below `2^k` whose bit `b`, for `b < k`, is bit `k - 1 - b` of `i`. -/
theorem SliceBitReverseInPlace_spec {α : Type} (k fuel : Nat) (slice : List α)
    (hlen : 2 ^ k ≤ slice.length) (hf : k ≤ fuel) :
    (∃ out, SliceBitReverseInPlace fuel slice (2 ^ k) = some out ∧
      out.length = slice.length ∧
      (∀ i, i < 2 ^ k → out[i]? = slice[bitRev k i]?) ∧
      (∀ i, 2 ^ k ≤ i → out[i]? = slice[i]?)) ∧
    (∀ i, bitRev k i < 2 ^ k) ∧
    (∀ i b, (bitRev k i).testBit b = (decide (b < k) && i.testBit (k - 1 - b))) := by
  have hpos : 0 < 2 ^ k := Nat.two_pow_pos k
  obtain ⟨out, hout, hl, hget⟩ := bitReverseLoop_spec k fuel slice hlen hf (2 ^ k - 1) 0 slice
    (swappedUpTo_zero k slice) (by omega)
  rw [bitRev_zero] at hout
  refine ⟨⟨out, hout, hl, fun i hi => ?_, fun i hi => ?_⟩, bitRev_lt k, bitRev_testBit k⟩
  · rw [hget i, if_pos ⟨hi, Or.inl (by omega)⟩]
  · rw [hget i, if_neg (by omega)]

theorem SliceBitReverseInPlace_spec_witness :
    2 ^ 3 ≤ [10, 11, 12, 13, 14, 15, 16, 17, 18, 19].length ∧ 3 ≤ 3 ∧
    (∃ out, SliceBitReverseInPlace 3 [10, 11, 12, 13, 14, 15, 16, 17, 18, 19] (2 ^ 3) = some out ∧
      out.length = [10, 11, 12, 13, 14, 15, 16, 17, 18, 19].length ∧
      (∀ i, i < 2 ^ 3 → out[i]? = [10, 11, 12, 13, 14, 15, 16, 17, 18, 19][bitRev 3 i]?) ∧
      (∀ i, 2 ^ 3 ≤ i → out[i]? = [10, 11, 12, 13, 14, 15, 16, 17, 18, 19][i]?)) ∧
    (∀ i, bitRev 3 i < 2 ^ 3) ∧
    (∀ i b, (bitRev 3 i).testBit b = (decide (b < 3) && i.testBit (3 - 1 - b))) :=
  ⟨by decide, by decide,
    SliceBitReverseInPlace_spec 3 3 [10, 11, 12, 13, 14, 15, 16, 17, 18, 19]
      (by decide) (by decide)⟩

theorem setCoeff_spec (rows N : Nat) (cf : Coeffs) (j i x : Nat) (hc : Rect rows N cf)
    (hj : j < rows) (hi : i < N) :
    ∃ cf2, setCoeff cf j i x = some cf2 ∧ Rect rows N cf2 ∧
      ∀ a k, coeffAt cf2 a k = if a = j ∧ k = i then some x else coeffAt cf a k := by
  obtain ⟨hl, hrow⟩ := hc
  have hjl : j < cf.length := by omega
  have hrj : (cf[j]).length = N := hrow _ (List.getElem_mem hjl)
  refine ⟨cf.set j ((cf[j]).set i x), ?_, ⟨by simp [hl], ?_⟩, ?_⟩
  · simp [setCoeff, List.getElem?_eq_getElem hjl, hrj, hi]
  · intro row hmem
    rcases List.mem_or_eq_of_mem_set hmem with h | h
    · exact hrow _ h
    · rw [h, List.length_set, hrj]
  · intro a k
    unfold coeffAt
    by_cases ha : a = j
    · subst ha
      rw [List.getElem?_set_self hjl]
      by_cases hk : k = i
      · subst hk
        simp [List.getElem?_set_self, hrj, hi]
      · simp [hk, List.getElem?_set_ne (fun h => hk h.symm), List.getElem?_eq_getElem hjl]
    · rw [List.getElem?_set_ne (fun h => ha h.symm), if_neg (fun h => ha h.1)]

theorem writeColumn_spec (rows N i : Nat) (f : Nat → Option Nat) (hi : i < N) (todo j : Nat)
    (cf : Coeffs) (hc : Rect rows N cf) (hj : j + todo ≤ rows)
    (hf : ∀ a, j ≤ a → a < j + todo → ∃ x, f a = some x) :
    ∃ cf2, writeColumn i f todo j cf = some cf2 ∧ Rect rows N cf2 ∧
      ∀ a k, coeffAt cf2 a k = if k = i ∧ j ≤ a ∧ a < j + todo then f a else coeffAt cf a k := by
  induction todo generalizing j cf with
  | zero => exact ⟨cf, rfl, hc, fun a k => by rw [if_neg (by omega)]⟩
  | succ todo ih =>
    obtain ⟨x, hx⟩ := hf j (le_refl _) (by omega)
    obtain ⟨cf1, h1, hr1, hg1⟩ := setCoeff_spec rows N cf j i x hc (by omega) hi
    obtain ⟨cf2, h2, hr2, hg2⟩ := ih (j + 1) cf1 hr1 (by omega)
      (fun a ha1 ha2 => hf a (by omega) (by omega))
    refine ⟨cf2, by simp [writeColumn, hx, h1, h2], hr2, fun a k => ?_⟩
    rw [hg2 a k, hg1 a k]
    by_cases hk : k = i
    · by_cases ha : a = j
      · subst ha
        rw [if_neg (by omega), if_pos ⟨rfl, hk⟩, if_pos ⟨hk, by omega, by omega⟩, hx]
      · by_cases hr : j + 1 ≤ a ∧ a < j + 1 + todo
        · rw [if_pos ⟨hk, hr⟩, if_pos ⟨hk, by omega, by omega⟩]
        · rw [if_neg (fun h => hr h.2), if_neg (fun h => ha h.1), if_neg]
          rintro ⟨_, h1, h2⟩
          exact hr ⟨by omega, by omega⟩
    · rw [if_neg (fun h => hk h.1), if_neg (fun h => hk h.2), if_neg (fun h => hk h.1)]

theorem ColumnWriter.frames {rows N col : Nat} {g : Coeffs → Option Coeffs}
    (h : ColumnWriter rows N col g) : FramesColumn rows N col g := by
  obtain ⟨n, f, hg⟩ := h
  intro cf hc
  obtain ⟨cf2, h2, hr2, hget⟩ := hg cf hc
  exact ⟨cf2, h2, hr2, fun a k hk => by rw [hget a k, if_neg (fun h => hk h.1)]⟩

theorem writeColumn_writer (rows N i n : Nat) (f : Nat → Option Nat) (hi : i < N)
    (hn : n ≤ rows) (hf : ∀ a, a < n → ∃ x, f a = some x) :
    ColumnWriter rows N i (writeColumn i f n 0) := by
  refine ⟨n, f, fun cf hc => ?_⟩
  obtain ⟨cf2, h2, hr2, hget⟩ := writeColumn_spec rows N i f hi n 0 cf hc (by omega)
    (fun a _ ha => hf a (by omega))
  refine ⟨cf2, h2, hr2, fun a k => ?_⟩
  rw [hget a k]
  simp


theorem ColumnWriter.of_eq (rows N i n : Nat) (f : Nat → Option Nat)
    (g : Coeffs → Option Coeffs) (hi : i < N) (hn : n ≤ rows)
    (hf : ∀ a, a < n → ∃ x, f a = some x)
    (hg : ∀ cf, Rect rows N cf → g cf = writeColumn i f n 0 cf) :
    ColumnWriter rows N i g := by
  obtain ⟨n2, f2, h⟩ := writeColumn_writer rows N i n f hi hn hf
  refine ⟨n2, f2, fun cf hcf => ?_⟩
  rw [hg cf hcf]
  exact h cf hcf

theorem moduliAtLevel_spec (r : Ring) (hlevel : r.Level < r.ModuliChain.length)
    (hbrc : r.ModuliChain.length ≤ r.BRedConstants.length)
    (hpos : ∀ q ∈ r.ModuliChain, 0 < q) :
    ∃ moduli, moduliAtLevel r = some moduli ∧ moduli.length = r.Level + 1 ∧
      ∀ a, a < moduli.length →
        (∃ q, moduli[a]? = some q ∧ 0 < q) ∧ ∃ b, r.BRedConstants[a]? = some b := by
  refine ⟨r.ModuliChain.take (r.Level + 1), ?_, ?_, ?_⟩
  · rw [moduliAtLevel, if_pos (by omega)]
  · rw [List.length_take]; omega
  · intro a ha
    rw [List.length_take] at ha
    have ha2 : a < (r.ModuliChain.take (r.Level + 1)).length := by
      rw [List.length_take]; exact ha
    refine ⟨⟨_, List.getElem?_eq_getElem ha2, ?_⟩, ?_⟩
    · exact hpos _ (List.mem_of_mem_take (List.getElem_mem ha2))
    · exact ⟨_, List.getElem?_eq_getElem (by omega)⟩

theorem SingleFloat64ToFixedPointCRT_writer {F : Type} (lib : Primitives F) (r : Ring)
    (rows N i : Nat) (value scale : F) (hlevel : r.Level < r.ModuliChain.length)
    (hbrc : r.ModuliChain.length ≤ r.BRedConstants.length)
    (hpos : ∀ q ∈ r.ModuliChain, 0 < q) (hrows : r.Level + 1 ≤ rows) (hi : i < N) :
    ColumnWriter rows N i (SingleFloat64ToFixedPointCRT lib r i value scale) := by
  obtain ⟨moduli, hm, hml, hmod⟩ := moduliAtLevel_spec r hlevel hbrc hpos
  by_cases hz : lib.isZero value = true
  · refine ColumnWriter.of_eq rows N i rows (fun _ => some 0) _ hi (le_refl _)
      (fun a _ => ⟨0, rfl⟩) (fun cf hcf => ?_)
    rw [SingleFloat64ToFixedPointCRT, if_pos hz, hcf.1]
  · by_cases hneg : lib.isNeg value = true
    · by_cases hbig : lib.gtTwo64 (lib.mul value (lib.mul scale lib.negOne)) = true
      · apply ColumnWriter.of_eq rows N i moduli.length _ _ hi (by omega)
        rotate_left
        · intro cf _
          simp only [SingleFloat64ToFixedPointCRT, if_neg hz, hm, if_pos hneg, if_pos hbig]
          rfl
        · intro a ha
          obtain ⟨⟨q, hq, hq0⟩, _⟩ := hmod a ha
          simp only [hq, if_neg (Nat.pos_iff_ne_zero.mp hq0)]
          exact ⟨_, rfl⟩
      · apply ColumnWriter.of_eq rows N i moduli.length _ _ hi (by omega)
        rotate_left
        · intro cf _
          simp only [SingleFloat64ToFixedPointCRT, if_neg hz, hm, if_pos hneg, if_neg hbig]
          rfl
        · intro a ha
          obtain ⟨⟨q, hq, _⟩, b, hb⟩ := hmod a ha
          simp only [hq, hb]
          split <;> exact ⟨_, rfl⟩
    · by_cases hbig : lib.gtTwo64 (lib.mul value scale) = true
      · apply ColumnWriter.of_eq rows N i moduli.length _ _ hi (by omega)
        rotate_left
        · intro cf _
          simp only [SingleFloat64ToFixedPointCRT, if_neg hz, hm, if_neg hneg, if_pos hbig]
          rfl
        · intro a ha
          obtain ⟨⟨q, hq, hq0⟩, _⟩ := hmod a ha
          simp only [hq, if_neg (Nat.pos_iff_ne_zero.mp hq0)]
          exact ⟨_, rfl⟩
      · apply ColumnWriter.of_eq rows N i moduli.length _ _ hi (by omega)
        rotate_left
        · intro cf _
          simp only [SingleFloat64ToFixedPointCRT, if_neg hz, hm, if_neg hneg, if_neg hbig]
          rfl
        · intro a ha
          obtain ⟨⟨q, hq, _⟩, b, hb⟩ := hmod a ha
          simp only [hq, hb]
          split <;> exact ⟨_, rfl⟩


theorem forValues_spec {F : Type} (rows N off : Nat)
    (body : Nat → Complex F → Coeffs → Option Coeffs)
    (hw : ∀ i v, i + off < N → ColumnWriter rows N (i + off) (body i v))
    (vs : List (Complex F)) (i0 : Nat) (cf : Coeffs) (hcf : Rect rows N cf)
    (hN : i0 + vs.length + off ≤ N) :
    ∃ cf2, forValues body vs i0 cf = some cf2 ∧ Rect rows N cf2 ∧
      (∀ a k, (k < i0 + off ∨ i0 + vs.length + off ≤ k) → coeffAt cf2 a k = coeffAt cf a k) ∧
      (∀ t (ht : t < vs.length), ∃ e, body (i0 + t) (vs.get ⟨t, ht⟩) cf = some e ∧
        ∀ a, coeffAt cf2 a (i0 + t + off) = coeffAt e a (i0 + t + off)) := by
  induction vs generalizing i0 cf with
  | nil => exact ⟨cf, rfl, hcf, fun _ _ _ => rfl, fun t ht => absurd ht (by simp)⟩
  | cons v vs ih =>
    simp only [List.length_cons] at hN
    obtain ⟨n, f, hg⟩ := hw i0 v (by omega)
    obtain ⟨cf1, h1, hr1, hget1⟩ := hg cf hcf
    obtain ⟨cf2, h2, hr2, hframe, hcols⟩ := ih (i0 + 1) cf1 hr1 (by omega)
    refine ⟨cf2, by simp [forValues, h1, h2], hr2, fun a k hk => ?_, fun t ht => ?_⟩
    · rw [hframe a k (by simp only [List.length_cons] at hk; omega), hget1 a k,
        if_neg (by simp only [List.length_cons] at hk; omega)]
    · cases t with
      | zero =>
        refine ⟨cf1, h1, fun a => ?_⟩
        exact hframe a _ (Or.inl (by omega))
      | succ t =>
        have ht2 : t < vs.length := by simpa using ht
        obtain ⟨e, he, hcol⟩ := hcols t ht2
        obtain ⟨n2, f2, hg2⟩ := hw (i0 + 1 + t) (vs.get ⟨t, ht2⟩) (by omega)
        obtain ⟨e0, he0, _, hget0⟩ := hg2 cf hcf
        obtain ⟨e1, he1, _, hgete⟩ := hg2 cf1 hr1
        rw [he] at he1
        cases he1
        have hidx : i0 + (t + 1) = i0 + 1 + t := by omega
        refine ⟨e0, by rw [hidx]; exact he0, fun a => ?_⟩
        have hne : ¬ (i0 + 1 + t + off = i0 + off ∧ a < n) := by omega
        rw [hidx, hcol a, hgete a, hget0 a, hget1 a, if_neg hne]

theorem forIndex_spec (rows N : Nat) (body : Nat → Coeffs → Option Coeffs)
    (hw : ∀ i, i < N → FramesColumn rows N i (body i)) (todo start : Nat) (cf : Coeffs)
    (hcf : Rect rows N cf) (hN : start + todo ≤ N) :
    ∃ cf2, forIndex body todo start cf = some cf2 ∧ Rect rows N cf2 ∧
      ∀ a k, k < start → coeffAt cf2 a k = coeffAt cf a k := by
  induction todo generalizing start cf with
  | zero => exact ⟨cf, rfl, hcf, fun _ _ _ => rfl⟩
  | succ todo ih =>
    obtain ⟨cf1, h1, hr1, hget1⟩ := hw start (by omega) cf hcf
    obtain ⟨cf2, h2, hr2, hget2⟩ := ih (start + 1) cf1 hr1 (by omega)
    refine ⟨cf2, by simp [forIndex, h1, h2], hr2, fun a k hk => ?_⟩
    rw [hget2 a k (by omega), hget1 a k (by omega)]

/-- C5, as amended: `Complex128ToFixedPointCRT` puts the real parts in the first
`len(values)` coefficients and the imaginary parts in the `len(values)` coefficients
that follow. For a Standard ring with positive moduli, a level within the chain and
a Barrett constant per modulus, coefficient rows of length `N`, at least as many
rows as moduli in use, `len(values) <= N/2`, and a `SingleFloatToFixedPointCRT`
that returns and touches only the column it is called for: the call returns, the
shape is kept, and for every `i < len(values)` the column `i` holds, in every row,
what `SingleFloat64ToFixedPointCRT` writes for the real part of `values[i]`, and the
column `len(values) + i` what it writes for the imaginary part of `values[i]`. -/
theorem Complex128ToFixedPointCRT_layout {F : Type} (lib : Primitives F) (r : Ring)
    (values : List (Complex F)) (scale : F) (coeffs : Coeffs) (N : Nat)
    (hstd : r.ringType = RingType.Standard)
    (hlevel : r.Level < r.ModuliChain.length)
    (hbrc : r.ModuliChain.length ≤ r.BRedConstants.length)
    (hpos : ∀ q ∈ r.ModuliChain, 0 < q)
    (hrows : r.Level + 1 ≤ coeffs.length)
    (hN : ∀ row ∈ coeffs, row.length = N)
    (hlen : values.length ≤ N / 2)
    (hzero : ∀ i, i < N →
      FramesColumn coeffs.length N i (lib.SingleFloatToFixedPointCRT r i lib.zero lib.zero)) :
    ∃ out, Complex128ToFixedPointCRT lib r values scale coeffs = some out ∧
      out.length = coeffs.length ∧ (∀ row ∈ out, row.length = N) ∧
      ∀ i (hi : i < values.length),
        (∃ enc, SingleFloat64ToFixedPointCRT lib r i (values.get ⟨i, hi⟩).re scale coeffs
            = some enc ∧ ∀ a, coeffAt out a i = coeffAt enc a i) ∧
        (∃ enc, SingleFloat64ToFixedPointCRT lib r (values.length + i)
            (values.get ⟨i, hi⟩).im scale coeffs = some enc ∧
          ∀ a, coeffAt out a (values.length + i) = coeffAt enc a (values.length + i)) := by
  have h2 : 2 * values.length ≤ N := by omega
  have hcf : Rect coeffs.length N coeffs := ⟨rfl, hN⟩
  have hw : ∀ (x : Complex F → F) (off i : Nat) (v : Complex F), i + off < N →
      ColumnWriter coeffs.length N (i + off)
        ((fun i v cf => SingleFloat64ToFixedPointCRT lib r (i + off) (x v) scale cf) i v) :=
    fun x off i v hi =>
      SingleFloat64ToFixedPointCRT_writer lib r coeffs.length N (i + off) (x v) scale
        hlevel hbrc hpos hrows hi
  obtain ⟨cf1, hc1, hr1, hf1, hcol1⟩ := forValues_spec coeffs.length N 0 _
    (hw Complex.re 0) values 0 coeffs hcf (by omega)
  obtain ⟨cf2, hc2, hr2, hf2, hcol2⟩ := forValues_spec coeffs.length N values.length _
    (hw Complex.im values.length) values 0 cf1 hr1 (by omega)
  obtain ⟨out, hc3, hr3, hf3⟩ := forIndex_spec coeffs.length N _ hzero
    (N - 2 * values.length) (2 * values.length) cf2 hr2 (by omega)
  have hrow0 : ∃ row0, cf2[0]? = some row0 ∧ row0.length = N := by
    have h0 : 0 < cf2.length := by rw [hr2.1]; omega
    exact ⟨_, List.getElem?_eq_getElem h0, hr2.2 _ (List.getElem_mem h0)⟩
  obtain ⟨row0, hrow0, hrow0l⟩ := hrow0
  refine ⟨out, ?_, hr3.1, hr3.2, fun i hi => ⟨?_, ?_⟩⟩
  · simp only [Nat.add_zero] at hc1
    simp only [Complex128ToFixedPointCRT, hc1, if_pos hstd, hc2, hrow0, hrow0l]
    exact hc3
  · obtain ⟨e, he, hcol⟩ := hcol1 i hi
    simp only [Nat.zero_add, Nat.add_zero] at he hcol
    refine ⟨e, he, fun a => ?_⟩
    rw [hf3 a i (by omega), hf2 a i (Or.inl (by omega)), hcol a]
  · obtain ⟨e, he, hcol⟩ := hcol2 i hi
    simp only [Nat.zero_add] at he hcol
    -- the same call on the input coefficients: the first loop left this column alone
    obtain ⟨n, f, hg⟩ := hw Complex.im values.length i (values.get ⟨i, hi⟩) (by omega)
    obtain ⟨e0, he0, _, hget0⟩ := hg coeffs hcf
    obtain ⟨e1, he1, _, hget1⟩ := hg cf1 hr1
    simp only at he0 he1
    rw [he] at he1
    cases he1
    have hidx : values.length + i = i + values.length := by omega
    refine ⟨e0, by rw [hidx]; exact he0, fun a => ?_⟩
    rw [hidx, hf3 a _ (by omega), hcol a, hget1 a, hget0 a,
      hf1 a _ (Or.inr (by omega))]

theorem integerPrimitives_frames (r : Ring) (rows N i : Nat) (hi : i < N) :
    FramesColumn rows N i
      (integerPrimitives.SingleFloatToFixedPointCRT r i integerPrimitives.zero
        integerPrimitives.zero) := by
  refine ColumnWriter.frames (ColumnWriter.of_eq rows N i rows (fun _ => some 0) _ hi
    (le_refl _) (fun a _ => ⟨0, rfl⟩) (fun cf hcf => ?_))
  show writeColumn i (fun _ => some 0) cf.length 0 cf = _
  rw [hcf.1]

theorem Complex128ToFixedPointCRT_layout_witness :
    exampleRing.ringType = RingType.Standard ∧
    exampleRing.Level < exampleRing.ModuliChain.length ∧
    exampleRing.ModuliChain.length ≤ exampleRing.BRedConstants.length ∧
    (∀ q ∈ exampleRing.ModuliChain, 0 < q) ∧
    exampleRing.Level + 1 ≤ exampleCoeffs.length ∧
    (∀ row ∈ exampleCoeffs, row.length = 8) ∧
    exampleValues.length ≤ 8 / 2 ∧
    ∃ out, Complex128ToFixedPointCRT integerPrimitives exampleRing exampleValues 1
        exampleCoeffs = some out ∧
      out.length = exampleCoeffs.length ∧ (∀ row ∈ out, row.length = 8) ∧
      ∀ i (hi : i < exampleValues.length),
        (∃ enc, SingleFloat64ToFixedPointCRT integerPrimitives exampleRing i
            (exampleValues.get ⟨i, hi⟩).re 1 exampleCoeffs = some enc ∧
          ∀ a, coeffAt out a i = coeffAt enc a i) ∧
        (∃ enc, SingleFloat64ToFixedPointCRT integerPrimitives exampleRing
            (exampleValues.length + i) (exampleValues.get ⟨i, hi⟩).im 1 exampleCoeffs
            = some enc ∧
          ∀ a, coeffAt out a (exampleValues.length + i)
            = coeffAt enc a (exampleValues.length + i)) :=
  ⟨by decide, by decide, by decide, by decide, by decide, by decide, by decide,
    Complex128ToFixedPointCRT_layout integerPrimitives exampleRing exampleValues 1
      exampleCoeffs 8 (by decide) (by decide) (by decide) (by decide) (by decide)
      (by decide) (by decide)
      (fun i hi => integerPrimitives_frames exampleRing exampleCoeffs.length 8 i hi)⟩

/-- C5 as stated fails. The ring is Standard, the one coefficient row has length
`N = 8` and `len(values) = 3 <= N/2`; the call on `1+2i, 3+4i, 5+6i` returns the
row `1, 3, 5, 2, 4, 6, 0, 0`. The coefficient at index `N/2 + 0 = 4` is `4`, the
imaginary part of `values[1]`, whereas the imaginary part `2` of `values[0]` is at
index `3`: it is not true that for every `i < len(values)` the column `N/2 + i`
holds what `SingleFloat64ToFixedPointCRT` writes for the imaginary part of
`values[i]`. -/
theorem Complex128ToFixedPointCRT_imag_not_at_half :
    exampleRing.ringType = RingType.Standard ∧
    (∀ row ∈ exampleCoeffs, row.length = 8) ∧
    exampleValues.length ≤ 8 / 2 ∧
    Complex128ToFixedPointCRT integerPrimitives exampleRing exampleValues 1 exampleCoeffs
      = some [[1, 3, 5, 2, 4, 6, 0, 0]] ∧
    ¬ ∃ out, Complex128ToFixedPointCRT integerPrimitives exampleRing exampleValues 1
        exampleCoeffs = some out ∧
      ∀ i (hi : i < exampleValues.length),
        ∃ enc, SingleFloat64ToFixedPointCRT integerPrimitives exampleRing (8 / 2 + i)
            (exampleValues.get ⟨i, hi⟩).im 1 exampleCoeffs = some enc ∧
          ∀ a, coeffAt out a (8 / 2 + i) = coeffAt enc a (8 / 2 + i) := by
  have e1 : Complex128ToFixedPointCRT integerPrimitives exampleRing exampleValues 1
      exampleCoeffs = some [[1, 3, 5, 2, 4, 6, 0, 0]] := by decide
  refine ⟨by decide, by decide, by decide, e1, ?_⟩
  rintro ⟨out, hout, h⟩
  obtain ⟨enc, henc, hcol⟩ := h 0 (by decide)
  have e2 : SingleFloat64ToFixedPointCRT integerPrimitives exampleRing (8 / 2 + 0)
      (exampleValues.get ⟨0, by decide⟩).im 1 exampleCoeffs
      = some [[9, 9, 9, 9, 2, 9, 9, 9]] := by decide
  rw [e1] at hout
  cases hout
  rw [e2] at henc
  cases henc
  exact absurd (hcol 0) (by decide)

end ckks
